import Mathlib

/-!
Verification of the caption refinement / segmentation / language-detection core
of the youtube_transcriber repository.  Strings are modelled as `List Char`
(Python `str` is a sequence of Unicode code points, as is `List Char` here).

Sources embedded:
* `refine_script` and `split_into_paragraphs` from
  `src/youtube_transcript_generator/document_generator.py`
* `detect_language` from `src/youtube_transcript_generator/translator.py`
* `format_time` from `src/youtube_transcript_generator/transcriber.py`
-/

/-! ### Basic string machinery -/

/-- Whitespace characters, as used by Python's `str.strip()` and the regex
class `\s` on str patterns: CPython's `str.isspace()` set, i.e. the code
points 09-0D, 1C-1F, 20, 85, A0, 1680, 2000-200A, 2028, 2029, 202F, 205F
and 3000. -/
def pyWS (c : Char) : Bool :=
  decide (c.toNat ∈ [0x09, 0x0A, 0x0B, 0x0C, 0x0D, 0x1C, 0x1D, 0x1E, 0x1F, 0x20,
    0x85, 0xA0, 0x1680, 0x2000, 0x2001, 0x2002, 0x2003, 0x2004, 0x2005, 0x2006,
    0x2007, 0x2008, 0x2009, 0x200A, 0x2028, 0x2029, 0x202F, 0x205F, 0x3000])

/-- Python `str.strip()`: drop leading and trailing whitespace. -/
def strip (s : List Char) : List Char :=
  ((s.dropWhile pyWS).reverse.dropWhile pyWS).reverse

/-- `isPre p s` holds when `p` is an initial segment of `s`. -/
def isPre : List Char → List Char → Bool
  | [], _ => true
  | _ :: _, [] => false
  | p :: ps, c :: cs => p == c && isPre ps cs

/-- `isSub p s` holds when `p` occurs as a contiguous substring of `s`
(Python's `p in s`). -/
def isSub : List Char → List Char → Bool
  | p, [] => p.isEmpty
  | p, c :: rest => isPre p (c :: rest) || isSub p rest

/-! ### `refine_script` (document_generator.py, lines 226-247) -/

/-- The noise marker `[음악]` removed by `refine_script`. -/
def noiseMarker : List Char := ['[', '음', '악', ']']

/-- Two consecutive periods, the pattern collapsed by `re.sub(r'\.+', '.')`. -/
def ddots : List Char := ['.', '.']

/-- `re.sub(r'\[음악\]', '', text)`: a single left-to-right scan deleting
non-overlapping occurrences of the marker (matches are found in the original
text only; the result is not rescanned). -/
def removeNoise : List Char → List Char
  | '[' :: '음' :: '악' :: ']' :: rest => removeNoise rest
  | c :: rest => c :: removeNoise rest
  | [] => []

/-- Prepend a character to the first piece of a split result
(`[[c]]` when there is no piece yet). -/
def consHead (c : Char) : List (List Char) → List (List Char)
  | [] => [[c]]
  | p :: ps => (c :: p) :: ps

/-- Python `text.split('. ')`: cut at each leftmost non-overlapping occurrence
of the two-character separator period-space. -/
def splitDS : List Char → List (List Char)
  | [] => [[]]
  | '.' :: ' ' :: rest => [] :: splitDS rest
  | c :: rest => consHead c (splitDS rest)

/-- The deduplication loop of `refine_script`: keep a candidate sentence only
when it is non-empty (Python truthiness) and not already among the kept
sentences (`unique_sentences`), which are accumulated in `acc`. -/
def dedup (acc : List (List Char)) : List (List Char) → List (List Char)
  | [] => []
  | s :: rest =>
    if s ≠ [] ∧ s ∉ acc then s :: dedup (acc ++ [s]) rest
    else dedup acc rest

/-- Python `'. '.join(pieces)`. -/
def joinDS : List (List Char) → List Char
  | [] => []
  | [p] => p
  | p :: ps => p ++ '.' :: ' ' :: joinDS ps

/-- `re.sub(r'\.+', '.', text)`: collapse every maximal run of periods into a
single period. -/
def collapseDots : List Char → List Char
  | [] => []
  | c :: rest =>
    if c = '.' ∧ rest.head? = some '.' then collapseDots rest
    else c :: collapseDots rest

/-- `refine_script` from document_generator.py: remove the noise marker, split
on `". "`, drop empty and repeated sentences, rejoin with `". "`, collapse
period runs, and strip surrounding whitespace. -/
def refine_script (t : List Char) : List Char :=
  strip (collapseDots (joinDS (dedup [] (splitDS (removeNoise t)))))

/-! ### `split_into_paragraphs` (document_generator.py, lines 250-278) -/

/-- Sentence terminators of the regex `(?<=[.!?])\s+`. -/
def isTerm (c : Char) : Bool := c == '.' || c == '!' || c == '?'

/-- Fuelled worker for `re.split(r'(?<=[.!?])\s+', text)`: cut after a
terminator that is immediately followed by whitespace, consuming the whole
whitespace run.  The fuel argument only makes the recursion structural; it is
always called with enough fuel. -/
def sentSplitF : Nat → List Char → List (List Char)
  | 0, s => [s]
  | _ + 1, [] => [[]]
  | _ + 1, [c] => [[c]]
  | fuel + 1, c :: d :: rest =>
    if isTerm c && pyWS d then
      [c] :: sentSplitF fuel (rest.dropWhile pyWS)
    else
      consHead c (sentSplitF fuel (d :: rest))

/-- `re.split(r'(?<=[.!?])\s+', text)`. -/
def sentSplit (s : List Char) : List (List Char) := sentSplitF s.length s

/-- The discourse connective keywords of `split_into_paragraphs`. -/
def keywords : List (List Char) :=
  [String.toList "그리고", String.toList "따라서", String.toList "그러나",
   String.toList "그래서", String.toList "결론적으로"]

/-- `any(keyword in sentence.lower() for keyword in [...])`.  `Char.toLower`
agrees with Python's per-character lowercasing wherever it can affect the
presence of these all-Hangul keywords (Hangul is fixed by lowercasing, and no
character lowercases to Hangul). -/
def keywordHit (s : List Char) : Bool :=
  keywords.any fun k => isSub k (s.map Char.toLower)

/-- Python `' '.join(current_paragraph)`. -/
def joinSp : List (List Char) → List Char
  | [] => []
  | [p] => p
  | p :: ps => p ++ ' ' :: joinSp ps

/-- The sentence-accumulation loop of `split_into_paragraphs`: skip blank
sentences; append the sentence to the current buffer; flush the buffer when it
has reached 5 sentences or the sentence contains a keyword; flush a non-empty
leftover buffer at the end.  Returns the paragraphs as sentence lists. -/
def paraLoop : List (List Char) → List (List Char) → List (List (List Char))
  | [], cur => if cur ≠ [] then [cur] else []
  | s :: rest, cur =>
    if strip s ≠ [] then
      if 5 ≤ (cur ++ [s]).length ∨ keywordHit s then
        (cur ++ [s]) :: paraLoop rest []
      else
        paraLoop rest (cur ++ [s])
    else
      paraLoop rest cur

/-- `split_into_paragraphs` from document_generator.py. -/
def split_into_paragraphs (t : List Char) : List (List Char) :=
  if t = [] ∨ (strip t).length < 30 then []
  else (paraLoop (sentSplit (removeNoise t)) []).map joinSp

/-! ### `detect_language` (translator.py, lines 162-200) -/

/-- `range(0xAC00, 0xD7A4)`: Hangul syllables. -/
def isKoChar (c : Char) : Bool := decide (0xAC00 ≤ c.toNat ∧ c.toNat ≤ 0xD7A3)

/-- `range(0x3040, 0x30FF)`: Hiragana and Katakana (upper bound exclusive). -/
def isJaChar (c : Char) : Bool := decide (0x3040 ≤ c.toNat ∧ c.toNat ≤ 0x30FE)

/-- `range(0x4E00, 0x9FFF)`: CJK unified ideographs (upper bound exclusive). -/
def isZhChar (c : Char) : Bool := decide (0x4E00 ≤ c.toNat ∧ c.toNat ≤ 0x9FFE)

/-- ASCII Latin letters. -/
def isEnChar (c : Char) : Bool :=
  decide ((97 ≤ c.toNat ∧ c.toNat ≤ 122) ∨ (65 ≤ c.toNat ∧ c.toNat ≤ 90))

/-- Python `max(counts, key=counts.get)` over an association list in insertion
order: returns the first entry with the maximal value (a later entry replaces
the current best only when its value is strictly greater).  The value of the
returned pair is the dictionary value of the returned key, since keys are
distinct. -/
def pyMaxKV (best : String × Nat) : List (String × Nat) → String × Nat
  | [] => best
  | kv :: rest => if kv.2 > best.2 then pyMaxKV kv rest else pyMaxKV best rest

/-- The entry returned by `max(counts, key=counts.get)` in `detect_language`:
the first pair with maximal count among the four counts in insertion order
ko, ja, zh, en. -/
def maxLangEntry (t : List Char) : String × Nat :=
  pyMaxKV ("ko", t.countP isKoChar)
    [("ja", t.countP isJaChar), ("zh", t.countP isZhChar), ("en", t.countP isEnChar)]

/-- `detect_language` from translator.py: count the characters of each of the
four classes, take the first key with the maximal count in the order
ko, ja, zh, en, and force `"en"` when the winning count is below 5% of the
text length (`counts[max_lang] < len(text) * 0.05`, read in exact arithmetic
as `20 * count < len`). -/
def detect_language (t : List Char) : String :=
  if 20 * (maxLangEntry t).2 < t.length then "en" else (maxLangEntry t).1

/-! ### `format_time` (transcriber.py, lines 71-76) -/

/-- The decimal digit character for `d < 10`. -/
def digitChar (d : Nat) : Char := Char.ofNat (48 + d)

/-- Fuelled decimal rendering of a natural number (most significant digit
first); the fuel only makes the recursion structural. -/
def natDecF : Nat → Nat → List Char
  | 0, _ => []
  | fuel + 1, n =>
    if n < 10 then [digitChar n]
    else natDecF fuel (n / 10) ++ [digitChar (n % 10)]

/-- Decimal digits of a natural number. -/
def natDec (n : Nat) : List Char := natDecF (n + 1) n

/-- Python `f"{n:02d}"` for a non-negative value: pad the decimal digits with
leading zeros to width two. -/
def pad2 (n : Nat) : List Char :=
  if (natDec n).length < 2 then '0' :: natDec n else natDec n

/-- Python `f"{z:02d}"` for an integer (negative values keep their sign and
are never padded at width two, since sign plus digits already fill it). -/
def fmt02 (z : Int) : List Char :=
  if 0 ≤ z then pad2 z.toNat else '-' :: natDec (-z).toNat

/-- Python `%` on numbers: `a - b * floor(a / b)` (result has the sign of the
divisor). -/
def pyMod (a b : ℚ) : ℚ := a - b * ⌊a / b⌋

/-- `format_time` from transcriber.py, with the floating-point seconds value
modelled exactly by a rational: `int(seconds // 3600)`, `int((seconds % 3600)
// 60)` and `int(seconds % 60)` (each `int()` truncates an already
floor-shaped non-negative quantity, hence equals the floor), rendered as
`f"{hours:02d}:{minutes:02d}:{seconds:02d}"`. -/
def format_time (s : ℚ) : List Char :=
  fmt02 ⌊s / 3600⌋ ++ ':' :: fmt02 ⌊pyMod s 3600 / 60⌋ ++ ':' :: fmt02 ⌊pyMod s 60⌋

/-! ### Definitions taken from the claims' wording (for comparison) -/

/-- Reading of claim C4's words: keep exactly the first occurrence of every
candidate (the empty candidate included); `seen` accumulates all previously
visited candidates. -/
def specFirstOccAll (seen : List (List Char)) : List (List Char) → List (List Char)
  | [] => []
  | c :: rest =>
    if c ∉ seen then c :: specFirstOccAll (c :: seen) rest
    else specFirstOccAll (c :: seen) rest

/-- Corrected characterisation of the deduplication step: keep exactly the
first occurrence of every non-empty candidate; `seen` accumulates all
previously visited candidates (not merely the kept ones). -/
def firstOccNE (seen : List (List Char)) : List (List Char) → List (List Char)
  | [] => []
  | c :: rest =>
    if c ∉ seen ∧ c ≠ [] then c :: firstOccNE (c :: seen) rest
    else firstOccNE (c :: seen) rest

example : refine_script (String.toList "[음악] Hello. [음악] World.") =
    String.toList "Hello.  World." := by decide

example : refine_script (String.toList "A. A. B.") = String.toList "A. B." := by decide

example : refine_script (String.toList "A... B.") = String.toList "A. B." := by decide

example : refine_script (String.toList "[음[음악]악]") = String.toList "[음악]" := by decide

example : detect_language (String.toList "Hello world") = "en" := by decide

example : detect_language (String.toList "안녕하세요") = "ko" := by decide

example : detect_language [] = "ko" := by decide

example : sentSplit (String.toList "Aa. Bb! Cc") =
    [String.toList "Aa.", String.toList "Bb!", String.toList "Cc"] := by decide

/-! ### Substring toolbox -/

theorem isSub_nil (s : List Char) : isSub [] s = true := by
  cases s with
  | nil => rfl
  | cons c r => simp [isSub, isPre]

theorem isSub_tail {p : List Char} {c : Char} {r : List Char}
    (h : isSub p (c :: r) = false) : isSub p r = false := by
  simp [isSub] at h
  exact h.2

theorem isSub_cons_of {p : List Char} (c : Char) {r : List Char}
    (h : isSub p r = true) : isSub p (c :: r) = true := by
  simp [isSub, h]

theorem isSub_of_isPre {p s : List Char} (h : isPre p s = true) : isSub p s = true := by
  cases s with
  | nil =>
    cases p with
    | nil => rfl
    | cons x p => simp [isPre] at h
  | cons c r => simp [isSub, h]

theorem isPre_trans {q a b : List Char} (h1 : isPre q a = true) (h2 : isPre a b = true) :
    isPre q b = true := by
  induction q generalizing a b with
  | nil => simp [isPre]
  | cons x q ih =>
    cases a with
    | nil => simp [isPre] at h1
    | cons y a =>
      cases b with
      | nil => simp [isPre] at h2
      | cons z b =>
        simp [isPre] at h1 h2 ⊢
        exact ⟨h1.1.trans h2.1, ih h1.2 h2.2⟩

theorem isSub_mono {q a b : List Char} (hab : isPre a b = true) (h : isSub q a = true) :
    isSub q b = true := by
  induction a generalizing b with
  | nil =>
    cases q with
    | nil => exact isSub_nil b
    | cons x q => simp [isSub, List.isEmpty] at h
  | cons x a ih =>
    cases b with
    | nil => simp [isPre] at hab
    | cons y b =>
      simp only [isPre, Bool.and_eq_true, beq_iff_eq] at hab
      rcases (by simpa [isSub] using h : isPre q (x :: a) = true ∨ isSub q a = true) with h1 | h2
      · refine isSub_of_isPre (isPre_trans h1 ?_)
        simp [isPre, hab.1, hab.2]
      · exact isSub_cons_of y (ih hab.2 h2)

theorem isPre_iff {p s : List Char} : isPre p s = true ↔ ∃ r, s = p ++ r := by
  induction p generalizing s with
  | nil => simp [isPre]
  | cons x p ih =>
    cases s with
    | nil => simp [isPre]
    | cons c s =>
      simp only [isPre, Bool.and_eq_true, beq_iff_eq, ih, List.cons_append, List.cons.injEq]
      constructor
      · rintro ⟨rfl, r, rfl⟩
        exact ⟨r, rfl, rfl⟩
      · rintro ⟨r, rfl, rfl⟩
        exact ⟨rfl, r, rfl⟩

theorem isSub_iff {p s : List Char} : isSub p s = true ↔ ∃ a b, s = a ++ p ++ b := by
  induction s with
  | nil =>
    cases p with
    | nil => simp [isSub, List.isEmpty]
    | cons x p => simp [isSub, List.isEmpty]
  | cons c r ih =>
    simp only [isSub, Bool.or_eq_true, isPre_iff, ih]
    constructor
    · rintro (⟨b, hb⟩ | ⟨a, b, hb⟩)
      · exact ⟨[], b, by simpa using hb⟩
      · exact ⟨c :: a, b, by simp [hb]⟩
    · rintro ⟨a, b, hab⟩
      cases a with
      | nil =>
        simp at hab
        exact Or.inl ⟨b, by simp [hab]⟩
      | cons y a =>
        simp at hab
        exact Or.inr ⟨a, b, by simp [hab.2]⟩

theorem dropWhile_ctx (f : Char → Bool) (s : List Char) : ∃ a, s = a ++ s.dropWhile f := by
  induction s with
  | nil => exact ⟨[], rfl⟩
  | cons c r ih =>
    obtain ⟨a, ha⟩ := ih
    by_cases h : f c
    · refine ⟨c :: a, ?_⟩
      rw [List.dropWhile_cons, if_pos h, List.cons_append, ← ha]
    · refine ⟨[], ?_⟩
      rw [List.dropWhile_cons, if_neg h, List.nil_append]

theorem isSub_dropWhile {q : List Char} {f : Char → Bool} {s : List Char}
    (h : isSub q (s.dropWhile f) = true) : isSub q s = true := by
  obtain ⟨a, ha⟩ := dropWhile_ctx f s
  obtain ⟨x, y, hxy⟩ := isSub_iff.mp h
  refine isSub_iff.mpr ⟨a ++ x, y, ?_⟩
  rw [ha, hxy]
  simp

theorem isSub_rev {q s : List Char} (h : isSub q s.reverse = true) :
    isSub q.reverse s = true := by
  obtain ⟨a, b, hab⟩ := isSub_iff.mp h
  refine isSub_iff.mpr ⟨b.reverse, a.reverse, ?_⟩
  have := congrArg List.reverse hab
  simpa [List.reverse_append] using this

theorem isSub_strip {q s : List Char} (h : isSub q (strip s) = true) : isSub q s = true := by
  unfold strip at h
  have h1 := isSub_rev h
  have h2 := isSub_dropWhile h1
  have h3 := isSub_rev (by simpa using h2)
  simpa using isSub_dropWhile h3

/-! ### Lemmas about `collapseDots` -/

theorem collapse_cons_pos {c : Char} {r : List Char} (h : c = '.' ∧ r.head? = some '.') :
    collapseDots (c :: r) = collapseDots r := by
  rw [collapseDots, if_pos h]

theorem collapse_cons_neg {c : Char} {r : List Char} (h : ¬(c = '.' ∧ r.head? = some '.')) :
    collapseDots (c :: r) = c :: collapseDots r := by
  rw [collapseDots, if_neg h]

theorem collapse_head (s : List Char) : (collapseDots s).head? = s.head? := by
  induction s with
  | nil => rfl
  | cons c r ih =>
    by_cases h : c = '.' ∧ r.head? = some '.'
    · rw [collapse_cons_pos h, ih, h.2, h.1]
      rfl
    · rw [collapse_cons_neg h]
      rfl

theorem isPre_collapse {s p : List Char} (hp : ∀ c ∈ p, c ≠ '.')
    (h : isPre p (collapseDots s) = true) : isPre p s = true := by
  induction s generalizing p with
  | nil => simpa [collapseDots] using h
  | cons c r ih =>
    by_cases hc : c = '.' ∧ r.head? = some '.'
    · cases p with
      | nil => simp [isPre]
      | cons x p =>
        exfalso
        rw [collapse_cons_pos hc] at h
        have hh := collapse_head r
        rw [hc.2] at hh
        cases hcr : collapseDots r with
        | nil => rw [hcr] at h; simp [isPre] at h
        | cons y w =>
          rw [hcr] at hh h
          simp at hh
          simp [isPre] at h
          exact hp x (by simp) (h.1.trans hh)
    · rw [collapse_cons_neg hc] at h
      cases p with
      | nil => simp [isPre]
      | cons x p =>
        simp [isPre] at h ⊢
        exact ⟨h.1, ih (fun d hd => hp d (by simp [hd])) h.2⟩

theorem isSub_collapse {s p : List Char} (hp : ∀ c ∈ p, c ≠ '.')
    (h : isSub p (collapseDots s) = true) : isSub p s = true := by
  induction s with
  | nil => simpa [collapseDots] using h
  | cons c r ih =>
    by_cases hc : c = '.' ∧ r.head? = some '.'
    · rw [collapse_cons_pos hc] at h
      exact isSub_cons_of c (ih h)
    · rw [collapse_cons_neg hc] at h
      rcases (by simpa [isSub] using h :
          isPre p (c :: collapseDots r) = true ∨ isSub p (collapseDots r) = true) with h1 | h2
      · have : isPre p (collapseDots (c :: r)) = true := by
          rw [collapse_cons_neg hc]
          exact h1
        exact isSub_of_isPre (isPre_collapse hp this)
      · exact isSub_cons_of c (ih h2)

theorem collapse_no_ddots (s : List Char) : isSub ddots (collapseDots s) = false := by
  induction s with
  | nil => rfl
  | cons c r ih =>
    by_cases hc : c = '.' ∧ r.head? = some '.'
    · rw [collapse_cons_pos hc]
      exact ih
    · rw [collapse_cons_neg hc]
      refine (Bool.eq_false_iff).mpr fun hcon => ?_
      rcases (by simpa [isSub] using hcon :
          isPre ddots (c :: collapseDots r) = true ∨ isSub ddots (collapseDots r) = true) with h1 | h2
      · simp only [ddots, isPre, Bool.and_eq_true, beq_iff_eq] at h1
        obtain ⟨rfl, h1⟩ := h1
        cases hcr : collapseDots r with
        | nil => rw [hcr] at h1; simp [isPre] at h1
        | cons y w =>
          rw [hcr] at h1
          simp [isPre] at h1
          have hh := collapse_head r
          rw [hcr] at hh
          refine hc ⟨rfl, ?_⟩
          rw [← hh]
          simp [← h1]
      · rw [ih] at h2
        exact Bool.false_ne_true h2

theorem collapse_id {s : List Char} (h : isSub ddots s = false) : collapseDots s = s := by
  induction s with
  | nil => rfl
  | cons c r ih =>
    by_cases hc : c = '.' ∧ r.head? = some '.'
    · exfalso
      obtain ⟨rfl, h2⟩ := hc
      cases r with
      | nil => simp at h2
      | cons y w =>
        simp at h2
        subst h2
        simp [isSub, isPre, ddots] at h
    · rw [collapse_cons_neg hc, ih (isSub_tail h)]

/-! ### Lemmas about `removeNoise` -/

theorem removeNoise_id {t : List Char} (h : isSub noiseMarker t = false) : removeNoise t = t := by
  induction t using removeNoise.induct with
  | case1 rest ih =>
    exfalso
    have : isPre noiseMarker ('[' :: '음' :: '악' :: ']' :: rest) = true := by
      simp [noiseMarker, isPre]
    have := isSub_of_isPre this
    rw [h] at this
    exact Bool.false_ne_true this
  | case2 c rest hne ih =>
    rw [removeNoise]
    · rw [ih (isSub_tail h)]
    · exact hne
  | case3 => rfl

/-! ### Lemmas about `splitDS` and `joinDS` -/

theorem splitDS_other {c : Char} {rest : List Char}
    (h : ∀ r2, c = '.' → rest = ' ' :: r2 → False) :
    splitDS (c :: rest) = consHead c (splitDS rest) := by
  rw [splitDS]
  exact h

theorem joinDS_cons2 (p q : List Char) (qs : List (List Char)) :
    joinDS (p :: q :: qs) = p ++ '.' :: ' ' :: joinDS (q :: qs) := rfl

theorem splitDS_ne_nil (s : List Char) : splitDS s ≠ [] := by
  induction s using splitDS.induct with
  | case1 => simp [splitDS]
  | case2 rest ih => simp [splitDS]
  | case3 c rest hne ih =>
    rw [splitDS]
    · cases hs : splitDS rest with
      | nil => simp [consHead]
      | cons p ps => simp [consHead]
    · exact hne

theorem splitDS_head_pre (s : List Char) :
    ∃ p ps, splitDS s = p :: ps ∧ isPre p s = true := by
  induction s using splitDS.induct with
  | case1 => exact ⟨[], [], rfl, rfl⟩
  | case2 rest ih => exact ⟨[], splitDS rest, rfl, rfl⟩
  | case3 c rest hne ih =>
    obtain ⟨p, ps, hs, hp⟩ := ih
    refine ⟨c :: p, ps, ?_, ?_⟩
    · rw [splitDS]
      · rw [hs]
        rfl
      · exact hne
    · simp [isPre, hp]

theorem splitDS_pieces_clean {q s : List Char} (h : isSub q s = false) :
    ∀ p ∈ splitDS s, isSub q p = false := by
  have hqne : q ≠ [] := by
    intro hq
    rw [hq, isSub_nil] at h
    simp at h
  induction s using splitDS.induct with
  | case1 =>
    intro p hp
    simp [splitDS] at hp
    subst hp
    cases q with
    | nil => exact absurd rfl hqne
    | cons x q => rfl
  | case2 rest ih =>
    intro p hp
    simp only [splitDS, List.mem_cons] at hp
    rcases hp with rfl | hp
    · cases q with
      | nil => exact absurd rfl hqne
      | cons x q => rfl
    · exact ih (isSub_tail (isSub_tail h)) p hp
  | case3 c rest hne ih =>
    intro p hp
    obtain ⟨p0, ps, hs, hp0⟩ := splitDS_head_pre rest
    rw [splitDS_other hne, hs] at hp
    simp only [consHead, List.mem_cons] at hp
    rcases hp with rfl | hp
    · refine (Bool.eq_false_iff).mpr fun hcon => ?_
      have : isPre (c :: p0) (c :: rest) = true := by simp [isPre, hp0]
      have := isSub_mono this hcon
      rw [h] at this
      exact Bool.false_ne_true this
    · exact ih (isSub_tail h) p (by rw [hs]; exact List.mem_cons_of_mem p0 hp)

theorem joinDS_cons (c : Char) (p : List Char) (ps : List (List Char)) :
    joinDS ((c :: p) :: ps) = c :: joinDS (p :: ps) := by
  cases ps with
  | nil => rfl
  | cons q qs => rfl

theorem joinDS_splitDS (s : List Char) : joinDS (splitDS s) = s := by
  induction s using splitDS.induct with
  | case1 => rfl
  | case2 rest ih =>
    rw [splitDS]
    cases hs : splitDS rest with
    | nil => exact absurd hs (splitDS_ne_nil rest)
    | cons p ps =>
      rw [hs] at ih
      rw [joinDS_cons2, List.nil_append, ih]
  | case3 c rest hne ih =>
    rw [splitDS_other hne]
    cases hs : splitDS rest with
    | nil => exact absurd hs (splitDS_ne_nil rest)
    | cons p ps =>
      rw [hs] at ih
      show joinDS ((c :: p) :: ps) = c :: rest
      rw [joinDS_cons, ih]

/-! ### Occurrences across separators -/

theorem isPre_through {p x y : List Char} {d : Char} (hd : ∀ c ∈ p, c ≠ d)
    (h : isPre p (x ++ d :: y) = true) : isPre p x = true := by
  induction p generalizing x with
  | nil => rfl
  | cons a p ih =>
    cases x with
    | nil =>
      exfalso
      simp [isPre] at h
      exact hd a (by simp) h.1
    | cons b x =>
      simp only [List.cons_append, isPre, Bool.and_eq_true, beq_iff_eq] at h ⊢
      exact ⟨h.1, ih (fun c hc => hd c (by simp [hc])) h.2⟩

theorem isSub_through {p x y : List Char} {d : Char} (hd : ∀ c ∈ p, c ≠ d)
    (h : isSub p (x ++ d :: y) = true) : isSub p x = true ∨ isSub p y = true := by
  induction x with
  | nil =>
    rw [List.nil_append] at h
    rcases (by simpa [isSub] using h : isPre p (d :: y) = true ∨ isSub p y = true) with h1 | h2
    · cases p with
      | nil => exact Or.inl (isSub_nil [])
      | cons a p =>
        exfalso
        simp [isPre] at h1
        exact hd a (by simp) h1.1
    · exact Or.inr h2
  | cons b x ih =>
    rw [List.cons_append] at h
    rcases (by simpa [isSub] using h :
        isPre p (b :: (x ++ d :: y)) = true ∨ isSub p (x ++ d :: y) = true) with h1 | h2
    · exact Or.inl (isSub_of_isPre (isPre_through hd (by simpa using h1)))
    · rcases ih h2 with h3 | h3
      · exact Or.inl (isSub_cons_of b h3)
      · exact Or.inr h3

theorem joinDS_clean {q : List Char} (hq : q ≠ []) (hdot : ∀ c ∈ q, c ≠ '.')
    (hsp : ∀ c ∈ q, c ≠ ' ') :
    ∀ L : List (List Char), (∀ p ∈ L, isSub q p = false) → isSub q (joinDS L) = false := by
  intro L
  induction L with
  | nil =>
    intro _
    cases q with
    | nil => exact absurd rfl hq
    | cons a q => rfl
  | cons p ps ih =>
    intro hL
    cases ps with
    | nil => simpa [joinDS] using hL p (by simp)
    | cons p2 ps2 =>
      rw [joinDS_cons2]
      refine (Bool.eq_false_iff).mpr fun hcon => ?_
      rcases isSub_through hdot hcon with h1 | h2
      · rw [hL p (by simp)] at h1
        exact Bool.false_ne_true h1
      · rcases isSub_through (x := []) hsp (by simpa using h2) with h3 | h4
        · cases q with
          | nil => exact hq rfl
          | cons a q => simp [isSub, List.isEmpty] at h3
        · have hps := ih fun r hr => hL r (by simp [hr])
          rw [hps] at h4
          exact Bool.false_ne_true h4

/-! ### Lemmas about `dedup` -/

theorem dedup_mem {acc L : List (List Char)} : ∀ x ∈ dedup acc L, x ∈ L := by
  induction L generalizing acc with
  | nil => intro x hx; simp [dedup] at hx
  | cons s rest ih =>
    intro x hx
    rw [dedup] at hx
    by_cases hc : s ≠ [] ∧ s ∉ acc
    · rw [if_pos hc] at hx
      rcases List.mem_cons.mp hx with rfl | hx
      · exact List.mem_cons_self _ _
      · exact List.mem_cons_of_mem _ (ih x hx)
    · rw [if_neg hc] at hx
      exact List.mem_cons_of_mem _ (ih x hx)

theorem dedup_id {L : List (List Char)} (hnd : L.Nodup) (hne : ∀ c ∈ L, c ≠ []) :
    ∀ acc, (∀ c ∈ L, c ∉ acc) → dedup acc L = L := by
  induction L with
  | nil => intro acc _; rfl
  | cons s rest ih =>
    intro acc hacc
    rw [dedup, if_pos ⟨hne s (by simp), hacc s (by simp)⟩]
    congr 1
    refine ih hnd.of_cons (fun c hc => hne c (by simp [hc])) _ ?_
    intro c hc hmem
    rcases List.mem_append.mp hmem with h1 | h1
    · exact hacc c (List.mem_cons_of_mem _ hc) h1
    · simp at h1
      subst h1
      exact (List.nodup_cons.mp hnd).1 hc

theorem dedup_firstOcc (L : List (List Char)) :
    ∀ acc seen, (∀ x, x ∈ acc ↔ (x ∈ seen ∧ x ≠ [])) →
    dedup acc L = firstOccNE seen L := by
  induction L with
  | nil => intro acc seen _; rfl
  | cons c rest ih =>
    intro acc seen hinv
    rw [dedup, firstOccNE]
    have hcond : (c ≠ [] ∧ c ∉ acc) ↔ (c ∉ seen ∧ c ≠ []) := by
      rw [hinv c]
      constructor
      · rintro ⟨h1, h2⟩
        exact ⟨fun hs => h2 ⟨hs, h1⟩, h1⟩
      · rintro ⟨h1, h2⟩
        exact ⟨h2, fun hmem => h1 hmem.1⟩
    by_cases hk : c ∉ seen ∧ c ≠ []
    · rw [if_pos (hcond.mpr hk), if_pos hk]
      congr 1
      apply ih
      intro x
      simp only [List.mem_append, List.mem_cons, List.not_mem_nil, or_false, hinv x]
      constructor
      · rintro (⟨h1, h2⟩ | rfl)
        · exact ⟨Or.inr h1, h2⟩
        · exact ⟨Or.inl rfl, hk.2⟩
      · rintro ⟨h1 | h1, h2⟩
        · exact Or.inr h1
        · exact Or.inl ⟨h1, h2⟩
    · rw [if_neg fun hcc => hk (hcond.mp hcc), if_neg hk]
      apply ih
      intro x
      rw [hinv x]
      simp only [List.mem_cons]
      push_neg at hk
      constructor
      · rintro ⟨h1, h2⟩
        exact ⟨Or.inr h1, h2⟩
      · rintro ⟨h1 | h1, h2⟩
        · subst h1
          rcases Decidable.em (x ∈ seen) with hm | hm
          · exact ⟨hm, h2⟩
          · exact absurd (hk hm) h2
        · exact ⟨h1, h2⟩

/-! ### Lemmas about `paraLoop` -/

theorem joinSp_cons2 (p q : List Char) (qs : List (List Char)) :
    joinSp (p :: q :: qs) = p ++ ' ' :: joinSp (q :: qs) := rfl

theorem paraLoop_bounds (ss : List (List Char)) :
    ∀ cur, cur.length ≤ 4 → (∀ s ∈ cur, strip s ≠ []) →
    ∀ p ∈ paraLoop ss cur, (1 ≤ p.length ∧ p.length ≤ 5) ∧ ∀ s ∈ p, strip s ≠ [] := by
  induction ss with
  | nil =>
    intro cur hlen hmem p hp
    rw [paraLoop] at hp
    by_cases hc : cur ≠ []
    · rw [if_pos hc] at hp
      simp at hp
      subst hp
      exact ⟨⟨List.length_pos.mpr hc, by omega⟩, hmem⟩
    · rw [if_neg hc] at hp
      simp at hp
  | cons s rest ih =>
    intro cur hlen hmem p hp
    rw [paraLoop] at hp
    by_cases h1 : strip s ≠ []
    · rw [if_pos h1] at hp
      by_cases h2 : 5 ≤ (cur ++ [s]).length ∨ keywordHit s
      · rw [if_pos h2] at hp
        rcases List.mem_cons.mp hp with rfl | hp
        · refine ⟨⟨by simp, by simp; omega⟩, ?_⟩
          intro x hx
          rcases List.mem_append.mp hx with hx | hx
          · exact hmem x hx
          · simp at hx
            subst hx
            exact h1
        · exact ih [] (by simp) (by simp) p hp
      · rw [if_neg h2] at hp
        push_neg at h2
        refine ih (cur ++ [s]) ?_ ?_ p hp
        · have h3 := h2.1
          simp at h3 ⊢
          omega
        · intro x hx
          rcases List.mem_append.mp hx with hx | hx
          · exact hmem x hx
          · simp at hx
            subst hx
            exact h1
    · rw [if_neg h1] at hp
      exact ih cur hlen hmem p hp

theorem paraLoop_keyword (ss : List (List Char)) :
    ∀ cur, (∀ s ∈ cur, keywordHit s = false) →
    ∀ p ∈ paraLoop ss cur, ∀ s ∈ p.dropLast, keywordHit s = false := by
  induction ss with
  | nil =>
    intro cur hk p hp
    rw [paraLoop] at hp
    by_cases hc : cur ≠ []
    · rw [if_pos hc] at hp
      simp at hp
      subst hp
      intro s hs
      exact hk s (List.dropLast_subset _ hs)
    · rw [if_neg hc] at hp
      simp at hp
  | cons s rest ih =>
    intro cur hk p hp
    rw [paraLoop] at hp
    by_cases h1 : strip s ≠ []
    · rw [if_pos h1] at hp
      by_cases h2 : 5 ≤ (cur ++ [s]).length ∨ keywordHit s
      · rw [if_pos h2] at hp
        rcases List.mem_cons.mp hp with rfl | hp
        · intro x hx
          rw [List.dropLast_concat] at hx
          exact hk x hx
        · exact ih [] (by simp) p hp
      · rw [if_neg h2] at hp
        push_neg at h2
        refine ih (cur ++ [s]) ?_ p hp
        intro x hx
        rcases List.mem_append.mp hx with hx | hx
        · exact hk x hx
        · simp at hx
          subst hx
          exact Bool.eq_false_iff.mpr h2.2
    · rw [if_neg h1] at hp
      exact ih cur hk p hp

/-! ### Lemmas about `pyMaxKV` -/

theorem pyMaxKV4 (ck cj cz ce : Nat) (m : String × Nat)
    (hm : m = pyMaxKV ("ko", ck) [("ja", cj), ("zh", cz), ("en", ce)]) :
    (ck ≤ m.2 ∧ cj ≤ m.2 ∧ cz ≤ m.2 ∧ ce ≤ m.2) ∧
      (m.1 = "ko" ∨ (m.1 = "ja" ∧ ck < m.2) ∨ (m.1 = "zh" ∧ ck < m.2 ∧ cj < m.2) ∨
        (m.1 = "en" ∧ ck < m.2 ∧ cj < m.2 ∧ cz < m.2)) := by
  subst hm
  simp only [pyMaxKV]
  split_ifs <;> simp_all <;> omega

/-! ### Lemmas about `format_time` -/

theorem pyMod_nonneg (a : ℚ) {b : ℚ} (hb : 0 < b) : 0 ≤ pyMod a b := by
  rw [pyMod, sub_nonneg]
  have h1 : ((⌊a / b⌋ : ℤ) : ℚ) ≤ a / b := Int.floor_le _
  calc b * (⌊a / b⌋ : ℚ) ≤ b * (a / b) := mul_le_mul_of_nonneg_left h1 (le_of_lt hb)
    _ = a := by field_simp

theorem pyMod_lt (a : ℚ) {b : ℚ} (hb : 0 < b) : pyMod a b < b := by
  rw [pyMod, sub_lt_iff_lt_add]
  have h1 : a / b < ⌊a / b⌋ + 1 := Int.lt_floor_add_one _
  calc a < ((⌊a / b⌋ : ℚ) + 1) * b := (div_lt_iff₀ hb).mp h1
    _ = b + b * (⌊a / b⌋ : ℚ) := by ring

theorem natDec_ne_nil (n : Nat) : natDec n ≠ [] := by
  rw [natDec, natDecF]
  by_cases h : n < 10
  · rw [if_pos h]
    simp
  · rw [if_neg h]
    simp

theorem pad2_len (n : Nat) : 2 ≤ (pad2 n).length := by
  rw [pad2]
  have h1 : 1 ≤ (natDec n).length := List.length_pos.mpr (natDec_ne_nil n)
  by_cases h : (natDec n).length < 2
  · rw [if_pos h]
    simp
    omega
  · rw [if_neg h]
    omega

theorem fmt02_len {z : Int} (h : 0 ≤ z) : 2 ≤ (fmt02 z).length := by
  rw [fmt02, if_pos h]
  exact pad2_len _

/-! ### Claim theorems -/

/-- Claim C1, counterexample: the claim asserts that for every input the
refined script contains no occurrence of the marker, but on the nested input
`[음[음악]악]` the single removal pass reconstructs the marker, which then
survives to the output. -/
theorem C1_counterexample :
    isSub noiseMarker (refine_script (String.toList "[음[음악]악]")) = true := by decide

/-- Claim C1 (amended): for every input string the refined script contains no
run of two or more consecutive periods; and it contains no occurrence of the
noise marker provided the single left-to-right removal pass leaves none (which
fails only when deleting occurrences of the marker makes a new nested one). -/
theorem C1_refine_clean (t : List Char) :
    isSub ddots (refine_script t) = false ∧
      (isSub noiseMarker (removeNoise t) = false →
        isSub noiseMarker (refine_script t) = false) := by
  constructor
  · refine (Bool.eq_false_iff).mpr fun hcon => ?_
    rw [refine_script] at hcon
    have h1 := isSub_strip hcon
    rw [collapse_no_ddots] at h1
    exact Bool.false_ne_true h1
  · intro h
    refine (Bool.eq_false_iff).mpr fun hcon => ?_
    rw [refine_script] at hcon
    have h1 := isSub_strip hcon
    have h2 := isSub_collapse (by decide) h1
    have hclean : ∀ p ∈ dedup [] (splitDS (removeNoise t)), isSub noiseMarker p = false :=
      fun p hp => splitDS_pieces_clean h p (dedup_mem p hp)
    have h3 := joinDS_clean (by decide) (by decide) (by decide) _ hclean
    rw [h3] at h2
    exact Bool.false_ne_true h2

/-- Witness for C1_refine_clean at the concrete input `"a. b"`. -/
theorem C1_witness :
    isSub ddots (refine_script (String.toList "a. b")) = false ∧
      isSub noiseMarker (refine_script (String.toList "a. b")) = false :=
  ⟨(C1_refine_clean (String.toList "a. b")).1,
   (C1_refine_clean (String.toList "a. b")).2 (by decide)⟩

/-- Claim C2: `detect_language` picks the language with the maximal character
count, ties broken by the enumeration order ko, ja, zh, en (the winner has a
maximal count and every earlier language has a strictly smaller count), except
that the result is forced to `"en"` when twenty times the winning count is
below the total character count (the exact reading of
`counts[max_lang] < len(text) * 0.05`). -/
theorem C2_detect_max (t : List Char) :
    (t.countP isKoChar ≤ (maxLangEntry t).2 ∧ t.countP isJaChar ≤ (maxLangEntry t).2 ∧
        t.countP isZhChar ≤ (maxLangEntry t).2 ∧ t.countP isEnChar ≤ (maxLangEntry t).2) ∧
      ((maxLangEntry t).1 = "ko" ∨
        ((maxLangEntry t).1 = "ja" ∧ t.countP isKoChar < (maxLangEntry t).2) ∨
        ((maxLangEntry t).1 = "zh" ∧ t.countP isKoChar < (maxLangEntry t).2 ∧
          t.countP isJaChar < (maxLangEntry t).2) ∨
        ((maxLangEntry t).1 = "en" ∧ t.countP isKoChar < (maxLangEntry t).2 ∧
          t.countP isJaChar < (maxLangEntry t).2 ∧ t.countP isZhChar < (maxLangEntry t).2)) ∧
      detect_language t =
        if 20 * (maxLangEntry t).2 < t.length then "en" else (maxLangEntry t).1 := by
  exact ⟨(pyMaxKV4 _ _ _ _ _ rfl).1, (pyMaxKV4 _ _ _ _ _ rfl).2, rfl⟩

/-- Claim C3, counterexample: the input `"a.. a"` contains no noise marker and
splits on `". "` into the pairwise-distinct candidates `"a."` and `"a"`, yet
refining is not idempotent on it: the period collapse merges the two sentences
into duplicates that only the second pass removes. -/
theorem C3_counterexample :
    isSub noiseMarker (String.toList "a.. a") = false ∧
      (splitDS (String.toList "a.. a")).Nodup ∧
      refine_script (refine_script (String.toList "a.. a")) ≠
        refine_script (String.toList "a.. a") := by decide

/-- Claim C3 (amended): refining is idempotent on every input that contains no
noise marker, splits on `". "` into pairwise-distinct and non-empty
candidates, contains no two consecutive periods, and carries no surrounding
whitespace; such an input is in fact a fixed point of `refine_script`. -/
theorem C3_idempotent (t : List Char)
    (hmk : isSub noiseMarker t = false)
    (hnd : (splitDS t).Nodup)
    (hne : ∀ c ∈ splitDS t, c ≠ [])
    (hdd : isSub ddots t = false)
    (hst : strip t = t) :
    refine_script (refine_script t) = refine_script t := by
  have hfix : refine_script t = t := by
    rw [refine_script, removeNoise_id hmk, dedup_id hnd hne [] (by simp), joinDS_splitDS,
      collapse_id hdd, hst]
  rw [hfix, hfix]

/-- Witness for C3_idempotent at the concrete input `"Hi. Bye"`. -/
theorem C3_witness :
    refine_script (refine_script (String.toList "Hi. Bye")) =
      refine_script (String.toList "Hi. Bye") :=
  C3_idempotent (String.toList "Hi. Bye") (by decide) (by decide) (by decide) (by decide)
    (by decide)

/-- Claim C4, counterexample: the claim asserts that the kept sequence is the
first occurrence of every candidate, the empty candidate included, but on the
input `". x"` the code drops the leading empty candidate produced by the
split. -/
theorem C4_counterexample :
    dedup [] (splitDS (removeNoise (String.toList ". x"))) ≠
      specFirstOccAll [] (splitDS (removeNoise (String.toList ". x"))) := by decide

/-- Claim C4 (amended): after noise removal and splitting on `". "`, the kept
sequence is exactly the first occurrence of every non-empty candidate, in
order of first occurrence; empty candidates are always dropped. -/
theorem C4_dedup_first (t : List Char) :
    dedup [] (splitDS (removeNoise t)) = firstOccNE [] (splitDS (removeNoise t)) :=
  dedup_firstOcc _ [] [] (by simp)

/-- Claim C5, counterexample: the claim asserts
`refine("[음악] Hello. [음악] World.") = "Hello. World."`, but the marker
removal leaves both surrounding spaces, so two spaces separate the
sentences. -/
theorem C5_counterexample :
    refine_script (String.toList "[음악] Hello. [음악] World.") ≠
      String.toList "Hello. World." := by decide

/-- Claim C5 (amended): on the input `"[음악] Hello. [음악] World."` the
refined script is exactly `"Hello.  World."` (two spaces after the first
period). -/
theorem C5_refine_example :
    refine_script (String.toList "[음악] Hello. [음악] World.") =
      String.toList "Hello.  World." := by decide

/-- Claim C6, counterexample: the claim asserts `detect("") = en`, but on the
empty string all counts are zero, the winner is the first key `"ko"`, and the
5% override does not fire because `0 < 0` fails, so the code returns
`"ko"`. -/
theorem C6_counterexample :
    detect_language (String.toList "") ≠ "en" ∧
      detect_language (String.toList "") = "ko" := by decide

/-- Claim C6 (amended): `detect("Hello world") = "en"` and
`detect("안녕하세요") = "ko"` hold as claimed, but `detect("") = "ko"`. -/
theorem C6_examples :
    detect_language (String.toList "Hello world") = "en" ∧
      detect_language (String.toList "안녕하세요") = "ko" ∧
      detect_language (String.toList "") = "ko" := by decide

/-- Claim C7: every paragraph returned by `split_into_paragraphs` is a
non-empty string, and every paragraph assembled by its accumulation loop
consists of between 1 and 5 sentences. -/
theorem C7_paragraph_bounds (t : List Char) :
    (∀ q ∈ split_into_paragraphs t, q ≠ []) ∧
      ∀ p ∈ paraLoop (sentSplit (removeNoise t)) [], 1 ≤ p.length ∧ p.length ≤ 5 := by
  have hmain := paraLoop_bounds (sentSplit (removeNoise t)) [] (by simp) (by simp)
  constructor
  · intro q hq
    rw [split_into_paragraphs] at hq
    by_cases hc : t = [] ∨ (strip t).length < 30
    · rw [if_pos hc] at hq
      simp at hq
    · rw [if_neg hc] at hq
      obtain ⟨p, hp, rfl⟩ := List.mem_map.mp hq
      obtain ⟨⟨h1, _⟩, h3⟩ := hmain p hp
      cases p with
      | nil => simp at h1
      | cons s ps =>
        have hs : s ≠ [] := by
          intro hs0
          have h4 := h3 s (by simp)
          rw [hs0] at h4
          exact h4 rfl
        cases ps with
        | nil => simpa [joinSp] using hs
        | cons p2 ps2 =>
          rw [joinSp_cons2]
          simp [hs]
  · intro p hp
    exact (hmain p hp).1

/-- Witness for C7_paragraph_bounds at a concrete two-sentence input. -/
theorem C7_witness :
    String.toList "First sentence is long enough. Second part here." ≠ [] ∧
      (1 ≤ ([String.toList "First sentence is long enough.",
          String.toList "Second part here."] : List (List Char)).length ∧
        ([String.toList "First sentence is long enough.",
          String.toList "Second part here."] : List (List Char)).length ≤ 5) :=
  ⟨(C7_paragraph_bounds
      (String.toList "First sentence is long enough. Second part here.")).1
      (String.toList "First sentence is long enough. Second part here.") (by decide),
   (C7_paragraph_bounds
      (String.toList "First sentence is long enough. Second part here.")).2
      [String.toList "First sentence is long enough.",
        String.toList "Second part here."] (by decide)⟩

/-- Claim C8: in every paragraph assembled by the accumulation loop of
`split_into_paragraphs`, no sentence before the last one contains a discourse
keyword (case-insensitively); equivalently, a sentence containing a keyword is
always the last sentence of its paragraph, because the buffer is flushed
immediately after it. -/
theorem C8_keyword_last (t : List Char) :
    ∀ p ∈ paraLoop (sentSplit (removeNoise t)) [], ∀ s ∈ p.dropLast,
      keywordHit s = false :=
  fun p hp => paraLoop_keyword (sentSplit (removeNoise t)) [] (by simp) p hp

/-- Witness for C8_keyword_last at a concrete two-sentence paragraph. -/
theorem C8_witness :
    keywordHit (String.toList "First sentence is long enough.") = false :=
  C8_keyword_last (String.toList "First sentence is long enough. Second part here.")
    [String.toList "First sentence is long enough.", String.toList "Second part here."]
    (by decide) (String.toList "First sentence is long enough.") (by decide)

/-- Claim C9: `detect_language` is total (a total Lean function) and always
returns one of the four codes ko, ja, zh, en. -/
theorem C9_detect_total (t : List Char) :
    detect_language t = "ko" ∨ detect_language t = "ja" ∨ detect_language t = "zh" ∨
      detect_language t = "en" := by
  have h := (pyMaxKV4 (t.countP isKoChar) (t.countP isJaChar) (t.countP isZhChar)
    (t.countP isEnChar) (maxLangEntry t) rfl).2
  by_cases hc : 20 * (maxLangEntry t).2 < t.length
  · have hd : detect_language t = "en" := by
      rw [detect_language]
      exact if_pos hc
    exact Or.inr (Or.inr (Or.inr hd))
  · have hd : detect_language t = (maxLangEntry t).1 := by
      rw [detect_language]
      exact if_neg hc
    rw [hd]
    rcases h with h | h | h | h
    · exact Or.inl h
    · exact Or.inr (Or.inl h.1)
    · exact Or.inr (Or.inr (Or.inl h.1))
    · exact Or.inr (Or.inr (Or.inr h.1))

/-- Claim C10: for every non-negative (rational-modelled) number of seconds,
`format_time` returns `"HH:MM:SS"` with each field zero-padded to at least two
digits, minutes and seconds in the range 0 to 59, and
`HH*3600 + MM*60 + SS` equal to the integer part of the input. -/
theorem C10_format_time (s : ℚ) (h : 0 ≤ s) :
    ∃ H M S : ℤ, 0 ≤ H ∧ 0 ≤ M ∧ M ≤ 59 ∧ 0 ≤ S ∧ S ≤ 59 ∧
      format_time s = fmt02 H ++ ':' :: fmt02 M ++ ':' :: fmt02 S ∧
      2 ≤ (fmt02 H).length ∧ 2 ≤ (fmt02 M).length ∧ 2 ≤ (fmt02 S).length ∧
      3600 * H + 60 * M + S = ⌊s⌋ := by
  have h3600 : (0 : ℚ) < 3600 := by norm_num
  have h60 : (0 : ℚ) < 60 := by norm_num
  have hH0 : 0 ≤ ⌊s / 3600⌋ := Int.floor_nonneg.mpr (div_nonneg h (le_of_lt h3600))
  have hm36 : 0 ≤ pyMod s 3600 := pyMod_nonneg s h3600
  have hm36lt : pyMod s 3600 < 3600 := pyMod_lt s h3600
  have hm60 : 0 ≤ pyMod s 60 := pyMod_nonneg s h60
  have hm60lt : pyMod s 60 < 60 := pyMod_lt s h60
  have hM0 : 0 ≤ ⌊pyMod s 3600 / 60⌋ := Int.floor_nonneg.mpr (div_nonneg hm36 (le_of_lt h60))
  have hM59 : ⌊pyMod s 3600 / 60⌋ ≤ 59 := by
    have hlt : pyMod s 3600 / 60 < ((60 : ℤ) : ℚ) := by
      rw [div_lt_iff₀ h60]
      push_cast
      linarith
    have := Int.floor_lt.mpr hlt
    omega
  have hS0 : 0 ≤ ⌊pyMod s 60⌋ := Int.floor_nonneg.mpr hm60
  have hS59 : ⌊pyMod s 60⌋ ≤ 59 := by
    have hlt : pyMod s 60 < ((60 : ℤ) : ℚ) := by
      push_cast
      linarith
    have := Int.floor_lt.mpr hlt
    omega
  have hMeq : ⌊pyMod s 3600 / 60⌋ = ⌊s / 60⌋ - 60 * ⌊s / 3600⌋ := by
    have heq : pyMod s 3600 / 60 = s / 60 - ((60 * ⌊s / 3600⌋ : ℤ) : ℚ) := by
      rw [pyMod]
      push_cast
      ring
    rw [heq, Int.floor_sub_int]
  have hSeq : ⌊pyMod s 60⌋ = ⌊s⌋ - 60 * ⌊s / 60⌋ := by
    have heq : pyMod s 60 = s - ((60 * ⌊s / 60⌋ : ℤ) : ℚ) := by
      rw [pyMod]
      push_cast
      ring
    rw [heq, Int.floor_sub_int]
  refine ⟨⌊s / 3600⌋, ⌊pyMod s 3600 / 60⌋, ⌊pyMod s 60⌋, hH0, hM0, hM59, hS0, hS59, rfl,
    fmt02_len hH0, fmt02_len hM0, fmt02_len hS0, ?_⟩
  rw [hMeq, hSeq]
  ring

/-- Witness for C10_format_time at the concrete input 3661.5 seconds. -/
theorem C10_witness :
    (0 : ℚ) ≤ 7323 / 2 ∧
      ∃ H M S : ℤ, 0 ≤ H ∧ 0 ≤ M ∧ M ≤ 59 ∧ 0 ≤ S ∧ S ≤ 59 ∧
        format_time (7323 / 2) = fmt02 H ++ ':' :: fmt02 M ++ ':' :: fmt02 S ∧
        2 ≤ (fmt02 H).length ∧ 2 ≤ (fmt02 M).length ∧ 2 ≤ (fmt02 S).length ∧
        3600 * H + 60 * M + S = ⌊(7323 / 2 : ℚ)⌋ :=
  ⟨by norm_num, C10_format_time (7323 / 2) (by norm_num)⟩
